import Mathlib

/-!
Shallow embedding of `trans_db.cpp` (the in-memory transactional ledger):
the `transaction_log` condensation of a transaction into per-account net
deltas, and the `transaction_db` with its optimistic `push_transaction`,
greedy recursive `settle`, and query accessors.

C++ `int` values (account ids, balances, amounts) are modelled as `Int`;
`size_t` transaction ids as `Nat`.  The two hash maps
(`unordered_map<int, account_balance>` for accounts and for a log's
entries) are modelled as association lists `List (Int × account_balance)`
with the exact insert / `operator[]` / `find` semantics of the C++
containers; iteration order of the model is list order (all properties
proved below are insensitive to the unordered container's iteration
order: counts, sums and per-key lookups).  `std::map<size_t, log_ptr>
temp_log` iterates in ascending key order; it is modelled as a list kept
in push order, which is ascending id order.  `std::set<size_t>
applied_transactions` is modelled as a sorted duplicate-free list with
ordered insertion.  C++ undefined behaviour reachable in `settle`
(`sia.front()` on an empty vector, dereferencing the `end()` iterator in
`get_invalid_accounts(const transaction_log&)`) is modelled by `Option`,
with `none` for the undefined executions.
-/

/-- Mirrors `struct account_balance { int account_id; int balance; }`. -/
structure account_balance where
  account_id : Int
  balance : Int
deriving Repr, DecidableEq

/-- Mirrors `struct transfer { int from; int to; int amount; }` (`from` and
`to` are Lean keywords, hence the trailing underscores). -/
structure transfer where
  from_ : Int
  to_ : Int
  amount : Int
deriving Repr, DecidableEq

/-- Mirrors `using transaction = vector<transfer>`. -/
abbrev transaction := List transfer

/-- Association-list model of `std::unordered_map<int, account_balance>`
(used both for `transaction_db::accounts` and `transaction_log::log`). -/
abbrev AMap := List (Int × account_balance)

namespace AMap

/-- Mirrors `map.find(k)`: the first (and in well-formed maps only) entry
with key `k`, if any. -/
def findVal? (m : AMap) (k : Int) : Option account_balance :=
  match m with
  | [] => none
  | e :: rest => if e.1 = k then some e.2 else findVal? rest k

/-- Mirrors `map.count(k) != 0`. -/
def containsKey (m : AMap) (k : Int) : Bool :=
  match m with
  | [] => false
  | e :: rest => e.1 == k || containsKey rest k

/-- Mirrors `map.insert({k, v})`: inserts only when the key is absent
(`std::unordered_map::insert` never overwrites an existing mapping). -/
def insertNew (m : AMap) (k : Int) (v : account_balance) : AMap :=
  if m.containsKey k then m else m ++ [(k, v)]

/-- Mirrors `map[k].balance += d` on a key known to be present: adds `d`
to the balance of the first entry with key `k` (no-op if absent; every
use in the source is guarded by `count`). -/
def addBal (m : AMap) (k : Int) (d : Int) : AMap :=
  match m with
  | [] => []
  | e :: rest =>
      if e.1 = k then (e.1, ⟨e.2.account_id, e.2.balance + d⟩) :: rest
      else e :: addBal rest k d

/-- Mirrors `map[k].balance += d` in full generality: `operator[]` value-
initialises a fresh `account_balance {0, 0}` when the key is absent, so
the created entry records `account_id = 0`. -/
def bracketAdd (m : AMap) (k : Int) (d : Int) : AMap :=
  if m.containsKey k then m.addBal k d else m ++ [(k, ⟨0, d⟩)]

/-- Balance stored under key `k`, `0` when the key is absent (the reading
used by the per-key lemmas below). -/
def balanceAt (m : AMap) (k : Int) : Int :=
  match m.findVal? k with
  | some v => v.balance
  | none => 0

/-- Sum of all stored balances (for the conservation property). -/
def total (m : AMap) : Int :=
  (m.map (fun e => e.2.balance)).sum

/-- Keys of the map, in entry order. -/
def keys (m : AMap) : List Int := m.map (fun e => e.1)

/-- Well-formedness maintained by every constructed map: one entry per
key. -/
def keysNodup (m : AMap) : Prop := m.keys.Nodup

end AMap

/-- Mirrors `class transaction_log`: the transaction id together with the
condensed per-account net-delta map. -/
structure transaction_log where
  transaction_id : Nat
  log : AMap
deriving Repr, DecidableEq

namespace transaction_log

/-- Mirrors `transaction_log::net_change(int account_id)`: the stored
delta for the key, `0` when absent. -/
def net_change (t : transaction_log) (account_id : Int) : Int :=
  match t.log.findVal? account_id with
  | some v => v.balance
  | none => 0

end transaction_log

/-- Mirrors `transaction_log::add_to_log(const transfer&)`: subtract the
amount from the `from` entry (creating it at `-amount` if absent), then
add it to the `to` entry (creating it at `amount` if absent). -/
def add_to_log (log : AMap) (x : transfer) : AMap :=
  let log1 :=
    if log.containsKey x.from_ then log.addBal x.from_ (-x.amount)
    else log ++ [(x.from_, ⟨x.from_, -x.amount⟩)]
  if log1.containsKey x.to_ then log1.addBal x.to_ x.amount
  else log1 ++ [(x.to_, ⟨x.to_, x.amount⟩)]

/-- Mirrors `transaction_log::build_log` running on accumulator `acc`:
validates the transfers in order, aborting the whole construction at the
first invalid transfer (`throw std::invalid_argument`, modelled as
`none`), otherwise folding each transfer into the log. -/
def build_log_from (validate : transfer → Bool) (acc : AMap) :
    transaction → Option AMap
  | [] => some acc
  | x :: rest =>
      if validate x then build_log_from validate (add_to_log acc x) rest
      else none

/-- Mirrors the `transaction_log` constructor body: build the condensed
map from the empty log. -/
def build_log (validate : transfer → Bool) (t : transaction) : Option AMap :=
  build_log_from validate [] t

/-- Mirrors `transaction_db::apply_transaction`: for each log entry,
`accounts[entry.account_id].balance += entry.balance` (note the key used
is the entry value's `account_id` field). -/
def apply_log (accounts : AMap) (log : AMap) : AMap :=
  log.foldl (fun acc e => acc.bracketAdd e.2.account_id e.2.balance) accounts

/-- Mirrors `transaction_db::rollback`: for each log entry,
`accounts[entry.account_id].balance -= entry.balance`. -/
def rollback_log (accounts : AMap) (log : AMap) : AMap :=
  log.foldl (fun acc e => acc.bracketAdd e.2.account_id (-e.2.balance)) accounts

/-- Mirrors `transaction_db::get_invalid_accounts()`: the number of
entries with negative balance. -/
def get_invalid_accounts (accounts : AMap) : Nat :=
  accounts.countP (fun e => e.2.balance < 0)

/-- Mirrors `transaction_db::get_invalid_accounts(const transaction_log& t)`,
including its defect: for each entry `x` of the log it computes
`accounts.find(x.account_id)->balance - t.net_change(x.balance)` — the
argument handed to `net_change` is the entry's *balance* (the delta),
where `net_change` expects an *account id*.  Dereferencing the `end()`
iterator when the account is missing is undefined behaviour, modelled as
`none` (never reached for logs built through `push_transaction`, whose
accounts are all validated). -/
def sim_invalid_go (accounts : AMap) (t : transaction_log) :
    AMap → Option Nat
  | [] => some 0
  | x :: rest =>
      match accounts.findVal? x.2.account_id with
      | none => none
      | some ab =>
          match sim_invalid_go accounts t rest with
          | none => none
          | some n =>
              some (if ab.balance - t.net_change x.2.balance < 0 then n + 1 else n)

/-- Entry point of the simulated-rollback scoring of one pending log. -/
def sim_invalid (accounts : AMap) (t : transaction_log) : Option Nat :=
  sim_invalid_go accounts t t.log

/-- Ordered insertion into the sorted duplicate-free list modelling
`std::set<size_t>::insert`. -/
def insertSorted : List Nat → Nat → List Nat
  | [], x => [x]
  | y :: ys, x =>
      if x < y then x :: y :: ys
      else if x = y then y :: ys
      else y :: insertSorted ys x

/-- Lexicographic minimum of two `(score, id)` pairs: after
`std::sort(sia)` on `std::pair` (lexicographic `operator<`),
`sia.front()` is exactly the left fold of this function over the scored
list. -/
def lexMin (a b : Nat × Nat) : Nat × Nat :=
  if b.1 < a.1 ∨ (b.1 = a.1 ∧ b.2 < a.2) then b else a

/-- Mirrors the `std::for_each` building `sia`: scores every pending log
in `temp_log` order, pairing the score with the transaction id;
propagates the undefined-lookup case of the scorer. -/
def score_all (accounts : AMap) : List transaction_log → Option (List (Nat × Nat))
  | [] => some []
  | l :: rest =>
      match sim_invalid accounts l with
      | none => none
      | some s =>
          match score_all accounts rest with
          | none => none
          | some srest => some ((s, l.transaction_id) :: srest)

/-- Mirrors `temp_log.erase(temp_log.find(id))`: removes the (unique)
pending log with the given transaction id. -/
def eraseById : List transaction_log → Nat → List transaction_log
  | [], _ => []
  | l :: rest, id => if l.transaction_id = id then rest else l :: eraseById rest id

/-- Mirrors the recursion of `transaction_db::settle`, acting on the
three state components it reads and writes and additionally counting the
number of `settle` activations (top-level entry plus recursive
self-calls); the result is `(accounts, applied_transactions, calls)`.
The `fuel` argument exists only to make the recursion structural: every
recursive call strictly shrinks `pending`, the wrapper `settle_go`
supplies `pending.length + 1`, and `settle_fuel_congr` below shows any
sufficient fuel computes the same result, so the `fuel = 0` branch is
unreachable from the wrapper.  `none` models the two undefined-behaviour
executions of the C++ (`sia.front()` on an empty vector when `pending`
is exhausted while a balance is still negative, and the scorer's
`end()`-dereference). -/
def settle_fuel : Nat → AMap → List transaction_log → List Nat →
    Option (AMap × List Nat × Nat)
  | 0, _, _, _ => none
  | fuel + 1, accounts, pending, applied =>
      if get_invalid_accounts accounts = 0 then
        some (accounts,
              pending.foldl (fun s l => insertSorted s l.transaction_id) applied,
              1)
      else
        match score_all accounts pending with
        | none => none
        | some [] => none
        | some (p :: ps) =>
            let best := ps.foldl lexMin p
            match pending.find? (fun l => l.transaction_id == best.2) with
            | none => none
            | some chosen =>
                match settle_fuel fuel (rollback_log accounts chosen.log)
                      (eraseById pending best.2) applied with
                | none => none
                | some (acc, app, n) => some (acc, app, n + 1)

/-- `settle` on the three state components, with sufficient fuel. -/
def settle_go (accounts : AMap) (pending : List transaction_log)
    (applied : List Nat) : Option (AMap × List Nat × Nat) :=
  settle_fuel (pending.length + 1) accounts pending applied

/-- Mirrors `class transaction_db`'s state: the id counter, the account
map, the pending buffer (`std::map` ascending by id — push order), and
the committed id set (sorted list). -/
structure transaction_db where
  current_transaction : Nat
  accounts : AMap
  temp_log : List transaction_log
  applied_transactions : List Nat
deriving Repr, DecidableEq

namespace transaction_db

/-- Mirrors the `transaction_db` constructor: `std::transform` with
`std::inserter` runs `insert` for each initial balance in input order,
so an entry is created only when its key is not already present. -/
def mk_db (initial_balances : List account_balance) : transaction_db :=
  { current_transaction := 0
    accounts := initial_balances.foldl
      (fun m a => m.insertNew a.account_id a) []
    temp_log := []
    applied_transactions := [] }

/-- Mirrors the validator closure in `push_transaction`:
`accounts.count(xfer.to) && accounts.count(xfer.from)`. -/
def validate_xfer (accounts : AMap) (x : transfer) : Bool :=
  accounts.containsKey x.to_ && accounts.containsKey x.from_

/-- Mirrors `transaction_db::push_transaction`: build the log with the
current id; on construction failure (`none`) return with no state
change (the id counter is not advanced); on success apply the log,
append it to the pending buffer, and increment the counter. -/
def push_transaction (db : transaction_db) (t : transaction) : transaction_db :=
  match build_log (validate_xfer db.accounts) t with
  | none => db
  | some log =>
      { db with
        accounts := apply_log db.accounts log
        temp_log := db.temp_log ++ [⟨db.current_transaction, log⟩]
        current_transaction := db.current_transaction + 1 }

/-- Mirrors `transaction_db::settle`: run the recursion on the state
components; on the terminal branch the pending buffer has been cleared
and the surviving ids committed. -/
def settle (db : transaction_db) : Option transaction_db :=
  match settle_go db.accounts db.temp_log db.applied_transactions with
  | none => none
  | some (acc, app, _) =>
      some { db with accounts := acc, temp_log := [], applied_transactions := app }

/-- Mirrors `transaction_db::get_balances`: the stored `account_balance`
values, in map iteration order. -/
def get_balances (db : transaction_db) : List account_balance :=
  db.accounts.map (fun e => e.2)

/-- Mirrors `transaction_db::get_applied_transactions`: the committed
ids in ascending (`std::set`) order. -/
def get_applied_transactions (db : transaction_db) : List Nat :=
  db.applied_transactions

end transaction_db

/-- Ordered application of a whole call sequence of `push_transaction`
(the quantification scaffolding for the sequence-of-pushes claims). -/
def pushAll (db : transaction_db) (ts : List transaction) : transaction_db :=
  ts.foldl transaction_db.push_transaction db

/-- Follows the spec's words (§4.4, step 2), not the source: the local
invalidity score of a pending log is the number of accounts, among only
the accounts the log touches, whose balance would be negative after the
simulated rollback, the delta being looked up by the touched account's
id: `current_balance(a) - net_change(a)`. -/
def spec_invalidity_score (accounts : AMap) (t : transaction_log) : Nat :=
  t.log.countP
    (fun e => accounts.balanceAt e.2.account_id - t.net_change e.2.account_id < 0)

/-- Algebraic sum of the deltas a log holds for key `k`, read off the
entry values' `account_id` fields (the keys `apply_log`/`rollback_log`
actually index the account map with). -/
def sumDeltaAt (log : AMap) (k : Int) : Int :=
  (log.map (fun e => if e.2.account_id = k then e.2.balance else 0)).sum

namespace AMap

/-- Pointwise variant of `addBal`: updates every entry with the key (in a
`keysNodup` map this is the same single entry `addBal` updates). -/
def mapAdd (m : AMap) (k : Int) (d : Int) : AMap :=
  m.map (fun e => if e.1 = k then (e.1, ⟨e.2.account_id, e.2.balance + d⟩) else e)

end AMap

/-- Fold form of `apply_log` (`sign = 1`) and `rollback_log` (`sign = -1`)
over pointwise updates, used to show rollback inverts apply. -/
def mapFold (m : AMap) (log : AMap) (sign : Int) : AMap :=
  log.foldl (fun acc e => acc.mapAdd e.2.account_id (sign * e.2.balance)) m

/-- Net pending delta at key `k`: the sum over all pending logs of the
deltas they hold for `k`. -/
def pendingNetD (pending : List transaction_log) (k : Int) : Int :=
  (pending.map (fun l => sumDeltaAt l.log k)).sum

/-- The invariant the push phase maintains: the account map is one entry
per key, every pending log touches only existing accounts, and undoing
every pending delta would leave every balance non-negative. -/
def DBInv (db : transaction_db) : Prop :=
  db.accounts.keysNodup ∧
    (∀ l ∈ db.temp_log, ∀ e ∈ l.log,
      db.accounts.containsKey e.2.account_id = true) ∧
    (∀ k, 0 ≤ db.accounts.balanceAt k - pendingNetD db.temp_log k)

/-! Basic lemmas about the association-map operations. -/

namespace AMap

theorem containsKey_eq_isSome (m : AMap) (k : Int) :
    m.containsKey k = (m.findVal? k).isSome := by
  induction m with
  | nil => rfl
  | cons e rest ih =>
      by_cases h : e.1 = k
      · simp [containsKey, findVal?, h]
      · simp [containsKey, findVal?, h, ih]

theorem findVal?_mem {m : AMap} {k : Int} {v : account_balance}
    (h : m.findVal? k = some v) : (k, v) ∈ m := by
  induction m with
  | nil => simp [findVal?] at h
  | cons e rest ih =>
      obtain ⟨k0, v0⟩ := e
      by_cases he : k0 = k
      · subst he
        rw [findVal?, if_pos rfl] at h
        obtain rfl : v0 = v := Option.some.inj h
        exact List.mem_cons_self _ _
      · rw [findVal?, if_neg he] at h
        exact List.mem_cons_of_mem _ (ih h)

theorem findVal?_append (m m' : AMap) (k : Int) :
    (m ++ m').findVal? k =
      ((m.findVal? k).orElse fun _ => m'.findVal? k) := by
  induction m with
  | nil => simp [findVal?]
  | cons e rest ih =>
      by_cases he : e.1 = k
      · simp [findVal?, he, Option.orElse]
      · simp [findVal?, he, ih]

theorem findVal?_eq_none_of_not_contains {m : AMap} {k : Int}
    (h : m.containsKey k = false) : m.findVal? k = none := by
  have hiff := containsKey_eq_isSome m k
  rw [h] at hiff
  cases hv : m.findVal? k with
  | none => rfl
  | some v => rw [hv] at hiff; simp at hiff

theorem balanceAt_append_single_self {m : AMap} {k : Int}
    (h : m.containsKey k = false) (v : account_balance) :
    (m ++ [(k, v)]).balanceAt k = v.balance := by
  simp [balanceAt, findVal?_append, findVal?_eq_none_of_not_contains h,
    findVal?, Option.orElse]

theorem balanceAt_append_single_ne {m : AMap} {k k' : Int}
    (h : k ≠ k') (v : account_balance) :
    (m ++ [(k, v)]).balanceAt k' = m.balanceAt k' := by
  rw [balanceAt, findVal?_append]
  have : findVal? [(k, v)] k' = none := by simp [findVal?, h]
  cases hm : m.findVal? k' <;> simp [balanceAt, this, hm, Option.orElse]

theorem addBal_balanceAt_ne {m : AMap} {k k' : Int} (h : k ≠ k') (d : Int) :
    (m.addBal k d).balanceAt k' = m.balanceAt k' := by
  induction m with
  | nil => rfl
  | cons e rest ih =>
      by_cases he : e.1 = k
      · subst he
        simp [addBal, balanceAt, findVal?, h]
      · by_cases he' : e.1 = k'
        · simp [addBal, balanceAt, findVal?, he, he', Ne.symm h]
        · simpa [addBal, balanceAt, findVal?, he, he'] using ih

theorem addBal_balanceAt_self {m : AMap} {k : Int}
    (h : m.containsKey k = true) (d : Int) :
    (m.addBal k d).balanceAt k = m.balanceAt k + d := by
  induction m with
  | nil => simp [containsKey] at h
  | cons e rest ih =>
      by_cases he : e.1 = k
      · simp [addBal, balanceAt, findVal?, he]
      · have h' : containsKey rest k = true := by
          simpa [containsKey, he] using h
        simpa [addBal, balanceAt, findVal?, he] using ih h'

theorem bracketAdd_balanceAt (m : AMap) (k k' : Int) (d : Int) :
    (m.bracketAdd k d).balanceAt k' =
      m.balanceAt k' + (if k = k' then d else 0) := by
  by_cases hc : m.containsKey k
  · by_cases he : k = k'
    · subst he
      simp [bracketAdd, hc, addBal_balanceAt_self hc]
    · simp [bracketAdd, hc, addBal_balanceAt_ne he, he]
  · by_cases he : k = k'
    · subst he
      have hb : m.balanceAt k = 0 := by
        rw [balanceAt]
        have := containsKey_eq_isSome m k
        rw [eq_false_of_ne_true hc] at this
        have hnone : m.findVal? k = none := by
          cases h : m.findVal? k
          · rfl
          · rw [h] at this; simp at this
        simp [hnone]
      simp [bracketAdd, hc, balanceAt_append_single_self (eq_false_of_ne_true hc), hb]
  
    · simp [bracketAdd, hc, balanceAt_append_single_ne he, he]

end AMap

namespace AMap

theorem addBal_total {m : AMap} {k : Int} (h : m.containsKey k = true)
    (d : Int) : (m.addBal k d).total = m.total + d := by
  induction m with
  | nil => simp [containsKey] at h
  | cons e rest ih =>
      by_cases he : e.1 = k
      · simp [addBal, total, he]
        ring
      · have h' : containsKey rest k = true := by
          simpa [containsKey, he] using h
        have := ih h'
        simp [addBal, total, he] at this ⊢
        omega

theorem bracketAdd_total (m : AMap) (k d : Int) :
    (m.bracketAdd k d).total = m.total + d := by
  by_cases hc : m.containsKey k
  · simp [bracketAdd, hc, addBal_total hc]
  · simp [bracketAdd, hc, total]

theorem addBal_keys (m : AMap) (k d : Int) : (m.addBal k d).keys = m.keys := by
  induction m with
  | nil => rfl
  | cons e rest ih =>
      by_cases he : e.1 = k
      · simp [addBal, keys, he]
      · simpa [addBal, keys, he] using ih

theorem containsKey_iff_mem_keys (m : AMap) (k : Int) :
    m.containsKey k = true ↔ k ∈ m.keys := by
  induction m with
  | nil => simp [containsKey, keys]
  | cons e rest ih =>
      by_cases he : e.1 = k
      · simp [containsKey, keys, he]
      · simp [containsKey, keys, he, Ne.symm he, ih]

theorem bracketAdd_keys_of_contains {m : AMap} {k : Int}
    (h : m.containsKey k = true) (d : Int) : (m.bracketAdd k d).keys = m.keys := by
  simp [bracketAdd, h, addBal_keys]

theorem bracketAdd_keys_of_not_contains {m : AMap} {k : Int}
    (h : m.containsKey k = false) (d : Int) :
    (m.bracketAdd k d).keys = m.keys ++ [k] := by
  simp [bracketAdd, h, keys]

theorem bracketAdd_keysNodup {m : AMap} (hnd : m.keysNodup) (k d : Int) :
    (m.bracketAdd k d).keysNodup := by
  by_cases hc : m.containsKey k
  · rw [keysNodup, bracketAdd_keys_of_contains hc]
    exact hnd
  · rw [keysNodup, bracketAdd_keys_of_not_contains (eq_false_of_ne_true hc)]
    rw [List.nodup_append]
    refine ⟨hnd, List.nodup_singleton k, ?_⟩
    intro a ha hb
    simp at hb
    subst hb
    exact hc ((containsKey_iff_mem_keys _ _).mpr ha)

theorem bracketAdd_contains_mono {m : AMap} {k' : Int}
    (h : m.containsKey k' = true) (k d : Int) :
    (m.bracketAdd k d).containsKey k' = true := by
  rw [containsKey_iff_mem_keys] at h ⊢
  by_cases hc : m.containsKey k
  · rwa [bracketAdd_keys_of_contains hc]
  · rw [bracketAdd_keys_of_not_contains (eq_false_of_ne_true hc)]
    exact List.mem_append_left _ h

end AMap

/-! Per-key and total effect of `apply_log` and `rollback_log`. -/


theorem sumDeltaAt_nil (k : Int) : sumDeltaAt [] k = 0 := rfl

theorem apply_log_balanceAt (log m : AMap) (k : Int) :
    (apply_log m log).balanceAt k = m.balanceAt k + sumDeltaAt log k := by
  induction log generalizing m with
  | nil => simp [apply_log, sumDeltaAt]
  | cons e rest ih =>
      rw [apply_log, List.foldl_cons]
      have := ih (m.bracketAdd e.2.account_id e.2.balance)
      rw [apply_log] at this
      rw [this, AMap.bracketAdd_balanceAt]
      by_cases hk : e.2.account_id = k <;> simp [sumDeltaAt, hk] <;> ring

theorem rollback_log_balanceAt (log m : AMap) (k : Int) :
    (rollback_log m log).balanceAt k = m.balanceAt k - sumDeltaAt log k := by
  induction log generalizing m with
  | nil => simp [rollback_log, sumDeltaAt]
  | cons e rest ih =>
      rw [rollback_log, List.foldl_cons]
      have := ih (m.bracketAdd e.2.account_id (-e.2.balance))
      rw [rollback_log] at this
      rw [this, AMap.bracketAdd_balanceAt]
      by_cases hk : e.2.account_id = k <;> simp [sumDeltaAt, hk] <;> ring

theorem apply_log_total (log m : AMap) :
    (apply_log m log).total = m.total + log.total := by
  induction log generalizing m with
  | nil => simp [apply_log, AMap.total]
  | cons e rest ih =>
      rw [apply_log, List.foldl_cons]
      have := ih (m.bracketAdd e.2.account_id e.2.balance)
      rw [apply_log] at this
      rw [this, AMap.bracketAdd_total]
      simp [AMap.total]
      ring

theorem rollback_log_keysNodup {m : AMap} (hnd : m.keysNodup) (log : AMap) :
    (rollback_log m log).keysNodup := by
  induction log generalizing m with
  | nil => exact hnd
  | cons e rest ih =>
      rw [rollback_log, List.foldl_cons]
      exact ih (AMap.bracketAdd_keysNodup hnd _ _)

theorem rollback_log_contains_mono {m : AMap} {k : Int}
    (h : m.containsKey k = true) (log : AMap) :
    (rollback_log m log).containsKey k = true := by
  induction log generalizing m with
  | nil => exact h
  | cons e rest ih =>
      rw [rollback_log, List.foldl_cons]
      exact ih (AMap.bracketAdd_contains_mono h _ _)

/-! Properties of the log construction. -/

theorem total_append_single (m : AMap) (k : Int) (v : account_balance) :
    AMap.total (m ++ [(k, v)]) = m.total + v.balance := by
  simp [AMap.total]

theorem add_to_log_total (log : AMap) (x : transfer) :
    (add_to_log log x).total = log.total := by
  have key : ∀ log1 : AMap, log1.total = log.total - x.amount →
      AMap.total (if AMap.containsKey log1 x.to_ then AMap.addBal log1 x.to_ x.amount
        else log1 ++ [(x.to_, ⟨x.to_, x.amount⟩)]) = log.total := by
    intro log1 h1
    by_cases h2 : AMap.containsKey log1 x.to_
    · rw [if_pos h2, AMap.addBal_total h2, h1]
      ring
    · rw [if_neg h2, total_append_single, h1]
      ring
  refine key _ ?_
  by_cases h : log.containsKey x.from_
  · rw [if_pos h, AMap.addBal_total h]
    ring
  · rw [if_neg h, total_append_single]
    ring

theorem build_log_from_total {validate : transfer → Bool} {acc L : AMap}
    {t : transaction} (h : build_log_from validate acc t = some L) :
    L.total = acc.total := by
  induction t generalizing acc with
  | nil =>
      rw [build_log_from] at h
      cases h
      rfl
  | cons x rest ih =>
      rw [build_log_from] at h
      by_cases hv : validate x
      · rw [if_pos hv] at h
        rw [ih h, add_to_log_total]
      · rw [if_neg hv] at h
        cases h

/-- A validated construction's condensed deltas sum to zero: value moved,
never created. -/
theorem build_log_total {validate : transfer → Bool} {L : AMap}
    {t : transaction} (h : build_log validate t = some L) : L.total = 0 :=
  build_log_from_total h

theorem build_log_from_isSome {validate : transfer → Bool} {t : transaction}
    (h : ∀ x ∈ t, validate x = true) (acc : AMap) :
    ∃ L, build_log_from validate acc t = some L := by
  induction t generalizing acc with
  | nil => exact ⟨acc, rfl⟩
  | cons x rest ih =>
      rw [build_log_from, if_pos (h x (List.mem_cons_self _ _))]
      exact ih (fun y hy => h y (List.mem_cons_of_mem _ hy)) _

theorem build_log_from_validates {validate : transfer → Bool} {t : transaction}
    {acc L : AMap} (h : build_log_from validate acc t = some L) :
    ∀ x ∈ t, validate x = true := by
  induction t generalizing acc with
  | nil => intro x hx; cases hx
  | cons y rest ih =>
      rw [build_log_from] at h
      by_cases hv : validate y
      · rw [if_pos hv] at h
        intro x hx
        rcases List.mem_cons.mp hx with rfl | hx'
        · exact hv
        · exact ih h x hx'
      · rw [if_neg hv] at h
        cases h

theorem build_log_none_of_invalid {validate : transfer → Bool} {t : transaction}
    (h : ∃ x ∈ t, validate x = false) : build_log validate t = none := by
  cases hb : build_log validate t with
  | none => rfl
  | some L =>
      obtain ⟨x, hx, hxv⟩ := h
      have := build_log_from_validates hb x hx
      rw [this] at hxv
      cases hxv

theorem addBal_entry_ids {m : AMap} {k d : Int} :
    ∀ e ∈ m.addBal k d, ∃ e' ∈ m, e.2.account_id = e'.2.account_id := by
  induction m with
  | nil => intro e he; cases he
  | cons f rest ih =>
      intro e he
      rw [AMap.addBal] at he
      by_cases hf : f.1 = k
      · rw [if_pos hf] at he
        rcases List.mem_cons.mp he with rfl | he'
        · exact ⟨f, List.mem_cons_self _ _, rfl⟩
        · exact ⟨e, List.mem_cons_of_mem _ he', rfl⟩
      · rw [if_neg hf] at he
        rcases List.mem_cons.mp he with rfl | he'
        · exact ⟨e, List.mem_cons_self _ _, rfl⟩
        · obtain ⟨e', he'', hid⟩ := ih e he'
          exact ⟨e', List.mem_cons_of_mem _ he'', hid⟩

theorem add_to_log_entry_ids {log : AMap} {x : transfer} :
    ∀ e ∈ add_to_log log x,
      (∃ e' ∈ log, e.2.account_id = e'.2.account_id) ∨
        e.2.account_id = x.from_ ∨ e.2.account_id = x.to_ := by
  intro e he
  rw [add_to_log] at he
  set log1 := if log.containsKey x.from_ then log.addBal x.from_ (-x.amount)
    else log ++ [(x.from_, ⟨x.from_, -x.amount⟩)] with hlog1
  have hstep1 : ∀ f ∈ log1, (∃ e' ∈ log, f.2.account_id = e'.2.account_id) ∨
      f.2.account_id = x.from_ := by
    intro f hf
    rw [hlog1] at hf
    by_cases h1 : log.containsKey x.from_
    · rw [if_pos h1] at hf
      exact Or.inl (addBal_entry_ids f hf)
    · rw [if_neg h1] at hf
      rcases List.mem_append.mp hf with hf' | hf'
      · exact Or.inl ⟨f, hf', rfl⟩
      · simp at hf'
        subst hf'
        exact Or.inr rfl
  by_cases h2 : log1.containsKey x.to_
  · rw [if_pos h2] at he
    obtain ⟨f, hf, hid⟩ := addBal_entry_ids e he
    rcases hstep1 f hf with ⟨e', he', hid'⟩ | hid'
    · exact Or.inl ⟨e', he', hid.trans hid'⟩
    · exact Or.inr (Or.inl (hid.trans hid'))
  · rw [if_neg h2] at he
    rcases List.mem_append.mp he with he' | he'
    · rcases hstep1 e he' with h | h
      · exact Or.inl h
      · exact Or.inr (Or.inl h)
    · simp at he'
      subst he'
      exact Or.inr (Or.inr rfl)

/-! Properties of the database constructor. -/

namespace AMap

theorem insertNew_findVal? (m : AMap) (k' : Int) (v : account_balance)
    (k : Int) :
    (m.insertNew k' v).findVal? k =
      ((m.findVal? k).orElse fun _ => if k' = k then some v else none) := by
  by_cases hc : m.containsKey k'
  · rw [insertNew, if_pos hc]
    by_cases he : k' = k
    · subst he
      have : (m.findVal? k').isSome := by rw [← containsKey_eq_isSome, hc]
      cases hv : m.findVal? k' with
      | none => rw [hv] at this; cases this
      | some w => simp [Option.orElse]
    · cases hv : m.findVal? k <;> simp [Option.orElse, he, hv]
  · rw [insertNew, if_neg hc, findVal?_append]
    simp [findVal?]

theorem insertNew_keysNodup {m : AMap} (hnd : m.keysNodup)
    (k : Int) (v : account_balance) : (m.insertNew k v).keysNodup := by
  by_cases hc : m.containsKey k
  · rwa [insertNew, if_pos hc]
  · rw [insertNew, if_neg hc, keysNodup, keys, List.map_append, List.nodup_append]
    refine ⟨hnd, by simp, ?_⟩
    intro a ha hb
    simp at hb
    subst hb
    exact hc ((containsKey_iff_mem_keys _ _).mpr ha)

end AMap

/-- The account map built by the constructor resolves every id to the
*first* `initial_balances` entry carrying it: `std::unordered_map::insert`
keeps the existing mapping, so later duplicates are ignored. -/
theorem mk_db_findVal? (initial_balances : List account_balance) (k : Int) :
    (transaction_db.mk_db initial_balances).accounts.findVal? k =
      initial_balances.find? (fun a => a.account_id == k) := by
  rw [transaction_db.mk_db]
  suffices h : ∀ m : AMap,
      (initial_balances.foldl (fun m a => m.insertNew a.account_id a) m).findVal? k =
        ((m.findVal? k).orElse fun _ =>
          initial_balances.find? (fun a => a.account_id == k)) by
    rw [h []]
    simp [AMap.findVal?, Option.orElse]
  induction initial_balances with
  | nil => intro m; cases h : m.findVal? k <;> simp [List.find?, Option.orElse, h]
  | cons a rest ih =>
      intro m
      rw [List.foldl_cons, ih, AMap.insertNew_findVal?, List.find?]
      by_cases he : a.account_id = k
      · cases h : m.findVal? k <;> simp [Option.orElse, he, h]
      · have hbeq : (a.account_id == k) = false := by simp [he]
        cases h : m.findVal? k <;> simp [Option.orElse, he, h, hbeq]

theorem mk_db_keysNodup (initial_balances : List account_balance) :
    (transaction_db.mk_db initial_balances).accounts.keysNodup := by
  rw [transaction_db.mk_db]
  suffices h : ∀ m : AMap, m.keysNodup →
      (initial_balances.foldl (fun m a => m.insertNew a.account_id a) m).keysNodup by
    exact h [] (by simp [AMap.keysNodup, AMap.keys])
  induction initial_balances with
  | nil => intro m hm; exact hm
  | cons a rest ih =>
      intro m hm
      rw [List.foldl_cons]
      exact ih _ (AMap.insertNew_keysNodup hm _ _)

theorem mk_db_balanceAt_nonneg {initial_balances : List account_balance}
    (h : ∀ a ∈ initial_balances, 0 ≤ a.balance) (k : Int) :
    0 ≤ (transaction_db.mk_db initial_balances).accounts.balanceAt k := by
  rw [AMap.balanceAt, mk_db_findVal?]
  cases hf : initial_balances.find? (fun a => a.account_id == k) with
  | none => simp
  | some v => exact h v (List.mem_of_find?_eq_some hf)

/-! Machinery for the apply/rollback inverse: on maps whose keys are all
present (the validated case), `operator[] +=` is a pointwise update that
commutes with itself, making `rollback` the exact inverse of `apply`. -/

namespace AMap


theorem mapAdd_eq_self_of_not_contains {m : AMap} {k : Int}
    (h : m.containsKey k = false) (d : Int) : m.mapAdd k d = m := by
  induction m with
  | nil => rfl
  | cons e rest ih =>
      rw [containsKey, Bool.or_eq_false_iff] at h
      have he : ¬e.1 = k := by simpa using h.1
      rw [mapAdd, List.map_cons, if_neg he]
      rw [mapAdd] at ih
      rw [ih h.2]

theorem addBal_eq_mapAdd {m : AMap} (hnd : m.keysNodup) (k d : Int) :
    m.addBal k d = m.mapAdd k d := by
  induction m with
  | nil => rfl
  | cons e rest ih =>
      rw [keysNodup, keys, List.map_cons, List.nodup_cons] at hnd
      by_cases he : e.1 = k
      · have hrest : containsKey rest k = false := by
          cases hc : containsKey rest k
          · rfl
          · exfalso
            exact hnd.1 (he ▸ (containsKey_iff_mem_keys rest k).mp hc)
        rw [addBal, if_pos he, mapAdd, List.map_cons, if_pos he]
        have := mapAdd_eq_self_of_not_contains hrest d
        rw [mapAdd] at this
        rw [this]
      · rw [addBal, if_neg he, mapAdd, List.map_cons, if_neg he]
        have := ih hnd.2
        rw [mapAdd] at this
        rw [this]

theorem bracketAdd_eq_mapAdd {m : AMap} (hnd : m.keysNodup) {k : Int}
    (hc : m.containsKey k = true) (d : Int) :
    m.bracketAdd k d = m.mapAdd k d := by
  rw [bracketAdd, if_pos hc, addBal_eq_mapAdd hnd]

theorem mapAdd_comm (m : AMap) (k d k' d' : Int) :
    (m.mapAdd k d).mapAdd k' d' = (m.mapAdd k' d').mapAdd k d := by
  rw [mapAdd, mapAdd, mapAdd, mapAdd, List.map_map, List.map_map]
  apply List.map_congr_left
  intro e _
  simp only [Function.comp]
  by_cases h1 : e.1 = k
  · by_cases h2 : e.1 = k'
    · obtain rfl : k = k' := h1.symm.trans h2
      simp [h1]
      omega
    · have hkk : ¬k = k' := fun h => h2 (h1.trans h)
      simp [h1, h2, hkk]
  · by_cases h2 : e.1 = k'
    · have hkk : ¬k' = k := fun h => h1 (h2.trans h)
      simp [h1, h2, hkk]
    · simp [h1, h2]

theorem mapAdd_cancel (m : AMap) (k d : Int) :
    (m.mapAdd k d).mapAdd k (-d) = m := by
  rw [mapAdd, mapAdd, List.map_map]
  conv_rhs => rw [← List.map_id m]
  apply List.map_congr_left
  intro e _
  obtain ⟨k0, id0, b0⟩ := e
  simp only [Function.comp, id]
  by_cases h : k0 = k
  · subst h
    simp
  · simp [h]

theorem mapAdd_keys (m : AMap) (k d : Int) : (m.mapAdd k d).keys = m.keys := by
  rw [mapAdd, keys, keys, List.map_map]
  apply List.map_congr_left
  intro e _
  by_cases h : e.1 = k <;> simp [Function.comp, h]

theorem mapAdd_keysNodup {m : AMap} (hnd : m.keysNodup) (k d : Int) :
    (m.mapAdd k d).keysNodup := by
  rwa [keysNodup, mapAdd_keys]

theorem mapAdd_containsKey (m : AMap) (k d k' : Int) :
    (m.mapAdd k d).containsKey k' = m.containsKey k' := by
  cases h : containsKey m k'
  · cases h' : containsKey (m.mapAdd k d) k'
    · rfl
    · exfalso
      have := (containsKey_iff_mem_keys _ _).mp h'
      rw [mapAdd_keys] at this
      rw [(containsKey_iff_mem_keys _ _).mpr this] at h
      cases h
  · apply (containsKey_iff_mem_keys _ _).mpr
    rw [mapAdd_keys]
    exact (containsKey_iff_mem_keys _ _).mp h

end AMap


theorem mapFold_cons (m : AMap) (e : Int × account_balance) (rest : AMap)
    (sign : Int) :
    mapFold m (e :: rest) sign =
      mapFold (m.mapAdd e.2.account_id (sign * e.2.balance)) rest sign := rfl

theorem mapFold_mapAdd_comm (log m : AMap) (sign k d : Int) :
    mapFold (m.mapAdd k d) log sign = (mapFold m log sign).mapAdd k d := by
  induction log generalizing m with
  | nil => rfl
  | cons e rest ih =>
      rw [mapFold_cons, mapFold_cons, AMap.mapAdd_comm, ih]

theorem mapFold_inverse (log m : AMap) :
    mapFold (mapFold m log 1) log (-1) = m := by
  induction log generalizing m with
  | nil => rfl
  | cons e rest ih =>
      rw [mapFold_cons, mapFold_cons, mapFold_mapAdd_comm, ih]
      have h1 : (1 : Int) * e.2.balance = e.2.balance := one_mul _
      have h2 : (-1 : Int) * e.2.balance = -e.2.balance := by ring
      rw [h1, h2, AMap.mapAdd_cancel]

theorem mapFold_keys (log m : AMap) (sign : Int) :
    (mapFold m log sign).keys = m.keys := by
  induction log generalizing m with
  | nil => rfl
  | cons e rest ih => rw [mapFold_cons, ih, AMap.mapAdd_keys]

theorem mapFold_containsKey (log m : AMap) (sign k : Int) :
    (mapFold m log sign).containsKey k = m.containsKey k := by
  cases h : AMap.containsKey m k
  · cases h' : AMap.containsKey (mapFold m log sign) k
    · rfl
    · exfalso
      have := (AMap.containsKey_iff_mem_keys _ _).mp h'
      rw [mapFold_keys] at this
      rw [(AMap.containsKey_iff_mem_keys _ _).mpr this] at h
      cases h
  · apply (AMap.containsKey_iff_mem_keys _ _).mpr
    rw [mapFold_keys]
    exact (AMap.containsKey_iff_mem_keys _ _).mp h

theorem mapFold_keysNodup {m : AMap} (hnd : m.keysNodup) (log : AMap)
    (sign : Int) : (mapFold m log sign).keysNodup := by
  rw [AMap.keysNodup, mapFold_keys]
  exact hnd

theorem apply_log_cons (m : AMap) (e : Int × account_balance) (rest : AMap) :
    apply_log m (e :: rest) =
      apply_log (m.bracketAdd e.2.account_id e.2.balance) rest := rfl

theorem rollback_log_cons (m : AMap) (e : Int × account_balance) (rest : AMap) :
    rollback_log m (e :: rest) =
      rollback_log (m.bracketAdd e.2.account_id (-e.2.balance)) rest := rfl

theorem apply_log_eq_mapFold {m log : AMap} (hnd : m.keysNodup)
    (hex : ∀ e ∈ log, m.containsKey e.2.account_id = true) :
    apply_log m log = mapFold m log 1 := by
  induction log generalizing m with
  | nil => rfl
  | cons e rest ih =>
      rw [apply_log_cons, mapFold_cons,
        AMap.bracketAdd_eq_mapAdd hnd (hex e (List.mem_cons_self _ _)), one_mul]
      apply ih (AMap.mapAdd_keysNodup hnd _ _)
      intro f hf
      rw [AMap.mapAdd_containsKey]
      exact hex f (List.mem_cons_of_mem _ hf)

theorem rollback_log_eq_mapFold {m log : AMap} (hnd : m.keysNodup)
    (hex : ∀ e ∈ log, m.containsKey e.2.account_id = true) :
    rollback_log m log = mapFold m log (-1) := by
  induction log generalizing m with
  | nil => rfl
  | cons e rest ih =>
      rw [rollback_log_cons, mapFold_cons,
        AMap.bracketAdd_eq_mapAdd hnd (hex e (List.mem_cons_self _ _)),
        show (-1 : Int) * e.2.balance = -e.2.balance by ring]
      apply ih (AMap.mapAdd_keysNodup hnd _ _)
      intro f hf
      rw [AMap.mapAdd_containsKey]
      exact hex f (List.mem_cons_of_mem _ hf)

/-- On an account map with one entry per key, rolling a log back right
after applying it restores the map exactly, provided every account the
log touches exists in the map (which validation guarantees). -/
theorem rollback_log_apply_log {m log : AMap} (hnd : m.keysNodup)
    (hex : ∀ e ∈ log, m.containsKey e.2.account_id = true) :
    rollback_log (apply_log m log) log = m := by
  rw [apply_log_eq_mapFold hnd hex]
  rw [rollback_log_eq_mapFold (mapFold_keysNodup hnd _ _)
    (fun f hf => by rw [mapFold_containsKey]; exact hex f hf)]
  exact mapFold_inverse log m

/-! Lemmas about the settlement recursion. -/

theorem get_invalid_accounts_eq_zero_iff (m : AMap) :
    get_invalid_accounts m = 0 ↔ ∀ e ∈ m, 0 ≤ e.2.balance := by
  rw [get_invalid_accounts, List.countP_eq_zero]
  constructor
  · intro h e he
    have := h e he
    simpa using this
  · intro h e he
    simpa using h e he

theorem balanceAt_of_mem_nodup {m : AMap} (hnd : m.keysNodup)
    {e : Int × account_balance} (he : e ∈ m) :
    m.balanceAt e.1 = e.2.balance := by
  induction m with
  | nil => cases he
  | cons f rest ih =>
      rw [AMap.keysNodup, AMap.keys, List.map_cons, List.nodup_cons] at hnd
      rcases List.mem_cons.mp he with rfl | he'
      · simp [AMap.balanceAt, AMap.findVal?]
      · have hne : ¬f.1 = e.1 := by
          intro hcontra
          exact hnd.1 (hcontra ▸ List.mem_map_of_mem (fun x => x.1) he')
        rw [AMap.balanceAt, AMap.findVal?, if_neg hne]
        exact ih hnd.2 he'

theorem sim_invalid_go_isSome {accounts : AMap} {l : AMap}
    (hex : ∀ e ∈ l, accounts.containsKey e.2.account_id = true)
    (t : transaction_log) : ∃ n, sim_invalid_go accounts t l = some n := by
  induction l with
  | nil => exact ⟨0, rfl⟩
  | cons e rest ih =>
      have hc := hex e (List.mem_cons_self _ _)
      rw [AMap.containsKey_eq_isSome] at hc
      obtain ⟨ab, hab⟩ := Option.isSome_iff_exists.mp hc
      obtain ⟨n, hn⟩ := ih (fun f hf => hex f (List.mem_cons_of_mem _ hf))
      rw [sim_invalid_go, hab, hn]
      exact ⟨_, rfl⟩

theorem score_all_isSome {accounts : AMap} {pending : List transaction_log}
    (hex : ∀ l ∈ pending, ∀ e ∈ l.log,
      accounts.containsKey e.2.account_id = true) :
    ∃ ss, score_all accounts pending = some ss := by
  induction pending with
  | nil => exact ⟨[], rfl⟩
  | cons l rest ih =>
      obtain ⟨n, hn⟩ :=
        sim_invalid_go_isSome (hex l (List.mem_cons_self _ _)) l
      obtain ⟨ss, hss⟩ := ih (fun l' hl' => hex l' (List.mem_cons_of_mem _ hl'))
      rw [score_all, sim_invalid, hn, hss]
      exact ⟨_, rfl⟩

theorem score_all_ids {accounts : AMap} {pending : List transaction_log}
    {ss : List (Nat × Nat)} (h : score_all accounts pending = some ss) :
    ∀ q ∈ ss, ∃ l ∈ pending, q.2 = l.transaction_id := by
  induction pending generalizing ss with
  | nil =>
      rw [score_all] at h
      cases h
      intro q hq
      cases hq
  | cons l rest ih =>
      rw [score_all] at h
      cases hs : sim_invalid accounts l with
      | none => rw [hs] at h; cases h
      | some s =>
          rw [hs] at h
          cases hrest : score_all accounts rest with
          | none => rw [hrest] at h; cases h
          | some srest =>
              rw [hrest] at h
              cases h
              intro q hq
              rcases List.mem_cons.mp hq with rfl | hq'
              · exact ⟨l, List.mem_cons_self _ _, rfl⟩
              · obtain ⟨l', hl', hid⟩ := ih hrest q hq'
                exact ⟨l', List.mem_cons_of_mem _ hl', hid⟩

theorem foldl_lexMin_mem (ps : List (Nat × Nat)) (p : Nat × Nat) :
    ps.foldl lexMin p ∈ p :: ps := by
  induction ps generalizing p with
  | nil => exact List.mem_cons_self _ _
  | cons q rest ih =>
      rw [List.foldl_cons]
      have hm := ih (lexMin p q)
      have : lexMin p q = p ∨ lexMin p q = q := by
        rw [lexMin]
        by_cases h : q.1 < p.1 ∨ (q.1 = p.1 ∧ q.2 < p.2)
        · rw [if_pos h]; exact Or.inr rfl
        · rw [if_neg h]; exact Or.inl rfl
      rcases List.mem_cons.mp hm with he | hrest
      · rcases this with h' | h'
        · rw [he, h']
          exact List.mem_cons_self _ _
        · rw [he, h']
          exact List.mem_cons_of_mem _ (List.mem_cons_self _ _)
      · exact List.mem_cons_of_mem _ (List.mem_cons_of_mem _ hrest)

theorem find?_eraseById_perm {pending : List transaction_log} {id : Nat}
    {c : transaction_log}
    (h : pending.find? (fun l => l.transaction_id == id) = some c) :
    pending.Perm (c :: eraseById pending id) := by
  induction pending with
  | nil => cases h
  | cons l rest ih =>
      by_cases hl : l.transaction_id = id
      · rw [List.find?_cons_of_pos _ (by simpa using hl)] at h
        cases h
        rw [eraseById, if_pos hl]
      · rw [List.find?_cons_of_neg _ (by simpa using hl)] at h
        rw [eraseById, if_neg hl]
        exact ((ih h).cons l).trans (List.Perm.swap _ _ _)

theorem find?_isSome_of_mem {pending : List transaction_log} {id : Nat}
    (h : ∃ l ∈ pending, l.transaction_id = id) :
    ∃ c, pending.find? (fun l => l.transaction_id == id) = some c := by
  cases hf : pending.find? (fun l => l.transaction_id == id) with
  | some c => exact ⟨c, rfl⟩
  | none =>
      obtain ⟨l, hl, hid⟩ := h
      have := List.find?_eq_none.mp hf l hl
      simp [hid] at this


theorem pendingNetD_perm {p1 p2 : List transaction_log}
    (h : p1.Perm p2) (k : Int) : pendingNetD p1 k = pendingNetD p2 k :=
  (h.map _).sum_eq

theorem settle_fuel_succ (fuel : Nat) (accounts : AMap)
    (pending : List transaction_log) (applied : List Nat) :
    settle_fuel (fuel + 1) accounts pending applied =
      (if get_invalid_accounts accounts = 0 then
        some (accounts,
              pending.foldl (fun s l => insertSorted s l.transaction_id) applied,
              1)
      else
        match score_all accounts pending with
        | none => none
        | some [] => none
        | some (p :: ps) =>
            let best := ps.foldl lexMin p
            match pending.find? (fun l => l.transaction_id == best.2) with
            | none => none
            | some chosen =>
                match settle_fuel fuel (rollback_log accounts chosen.log)
                      (eraseById pending best.2) applied with
                | none => none
                | some (acc, app, n) => some (acc, app, n + 1)) := rfl

theorem score_all_length {accounts : AMap} {pending : List transaction_log}
    {ss : List (Nat × Nat)} (h : score_all accounts pending = some ss) :
    ss.length = pending.length := by
  induction pending generalizing ss with
  | nil =>
      rw [score_all] at h
      cases h
      rfl
  | cons l rest ih =>
      rw [score_all] at h
      cases hs : sim_invalid accounts l with
      | none => rw [hs] at h; cases h
      | some s =>
          rw [hs] at h
          cases hrest : score_all accounts rest with
          | none => rw [hrest] at h; cases h
          | some srest =>
              rw [hrest] at h
              cases h
              simp [ih hrest]

theorem pendingNetD_cons (c : transaction_log) (p : List transaction_log)
    (k : Int) : pendingNetD (c :: p) k = sumDeltaAt c.log k + pendingNetD p k := by
  rw [pendingNetD, List.map_cons, List.sum_cons, pendingNetD]

theorem pendingNetD_nil (k : Int) : pendingNetD [] k = 0 := rfl

/-- Core soundness of the settlement recursion: if rolling back every
pending log would leave every balance non-negative (the invariant the
push phase establishes from non-negative initial balances), the
recursion terminates normally and every final stored balance is
non-negative. -/
theorem settle_fuel_nonneg (fuel : Nat) :
    ∀ (accounts : AMap) (pending : List transaction_log) (applied : List Nat),
      pending.length < fuel →
      accounts.keysNodup →
      (∀ l ∈ pending, ∀ e ∈ l.log, accounts.containsKey e.2.account_id = true) →
      (∀ k, 0 ≤ accounts.balanceAt k - pendingNetD pending k) →
      ∃ acc app n,
        settle_fuel fuel accounts pending applied = some (acc, app, n) ∧
          ∀ e ∈ acc, 0 ≤ e.2.balance := by
  induction fuel with
  | zero =>
      intro accounts pending applied hlt
      exact absurd hlt (Nat.not_lt_zero _)
  | succ fuel ih =>
      intro accounts pending applied hlt hnd hwf hinv
      by_cases hz : get_invalid_accounts accounts = 0
      · rw [settle_fuel_succ, if_pos hz]
        exact ⟨accounts, _, 1, rfl,
          (get_invalid_accounts_eq_zero_iff accounts).mp hz⟩
      · have hpend : pending ≠ [] := by
          intro hcontra
          subst hcontra
          apply hz
          apply (get_invalid_accounts_eq_zero_iff accounts).mpr
          intro e he
          have hk := hinv e.1
          rw [pendingNetD_nil] at hk
          have hb := balanceAt_of_mem_nodup hnd he
          omega
        obtain ⟨ss, hss⟩ := score_all_isSome hwf
        cases ss with
        | nil =>
            exfalso
            have := score_all_length hss
            cases pending with
            | nil => exact hpend rfl
            | cons a b => simp at this
        | cons p ps =>
            have hbest := foldl_lexMin_mem ps p
            obtain ⟨lbest, hlbest, hidbest⟩ :=
              score_all_ids hss _ hbest
            obtain ⟨chosen, hfind⟩ :=
              find?_isSome_of_mem ⟨lbest, hlbest, hidbest.symm⟩
            have hperm := find?_eraseById_perm hfind
            have hlen : pending.length =
                (eraseById pending (ps.foldl lexMin p).2).length + 1 := by
              have := hperm.length_eq
              simpa using this
            have hnd' := rollback_log_keysNodup hnd chosen.log
            have hwf' : ∀ l ∈ eraseById pending (ps.foldl lexMin p).2,
                ∀ e ∈ l.log,
                  (rollback_log accounts chosen.log).containsKey e.2.account_id
                    = true := by
              intro l hl e he
              have hlmem : l ∈ pending :=
                hperm.symm.subset (List.mem_cons_of_mem _ hl)
              exact rollback_log_contains_mono (hwf l hlmem e he) _
            have hinv' : ∀ k,
                0 ≤ (rollback_log accounts chosen.log).balanceAt k -
                  pendingNetD (eraseById pending (ps.foldl lexMin p).2) k := by
              intro k
              have h1 := rollback_log_balanceAt chosen.log accounts k
              have h2 : pendingNetD pending k =
                  sumDeltaAt chosen.log k +
                    pendingNetD (eraseById pending (ps.foldl lexMin p).2) k := by
                rw [pendingNetD_perm hperm, pendingNetD_cons]
              have h3 := hinv k
              omega
            obtain ⟨acc, app, n, hrec, hnn⟩ :=
              ih (rollback_log accounts chosen.log)
                (eraseById pending (ps.foldl lexMin p).2) applied
                (by omega) hnd' hwf' hinv'
            refine ⟨acc, app, n + 1, ?_, hnn⟩
            rw [settle_fuel_succ, if_neg hz]
            simp only [hss, hfind, hrec]

/-- Whenever the settlement recursion returns normally, it used at most
`pending.length + 1` activations, and the terminal state it returns has
no negative balance. -/
theorem settle_fuel_some_facts (fuel : Nat) :
    ∀ {accounts : AMap} {pending : List transaction_log} {applied : List Nat}
      {acc : AMap} {app : List Nat} {n : Nat},
      settle_fuel fuel accounts pending applied = some (acc, app, n) →
      n ≤ pending.length + 1 ∧ get_invalid_accounts acc = 0 := by
  induction fuel with
  | zero =>
      intro accounts pending applied acc app n h
      cases h
  | succ fuel ih =>
      intro accounts pending applied acc app n h
      rw [settle_fuel_succ] at h
      by_cases hz : get_invalid_accounts accounts = 0
      · rw [if_pos hz] at h
        simp only [Option.some.injEq, Prod.mk.injEq] at h
        obtain ⟨rfl, rfl, rfl⟩ := h
        exact ⟨by omega, hz⟩
      · rw [if_neg hz] at h
        cases hss : score_all accounts pending with
        | none => rw [hss] at h; cases h
        | some ss =>
            cases ss with
            | nil => rw [hss] at h; cases h
            | cons p ps =>
                simp only [hss] at h
                cases hfind : pending.find?
                    (fun l => l.transaction_id == (ps.foldl lexMin p).2) with
                | none => rw [hfind] at h; cases h
                | some chosen =>
                    simp only [hfind] at h
                    cases hrec : settle_fuel fuel
                        (rollback_log accounts chosen.log)
                        (eraseById pending (ps.foldl lexMin p).2) applied with
                    | none => rw [hrec] at h; cases h
                    | some r =>
                        obtain ⟨acc', app', m⟩ := r
                        simp only [hrec, Option.some.injEq, Prod.mk.injEq] at h
                        obtain ⟨rfl, rfl, rfl⟩ := h
                        obtain ⟨hm, hacc⟩ := ih hrec
                        have hperm := find?_eraseById_perm hfind
                        have hlen : pending.length =
                            (eraseById pending (ps.foldl lexMin p).2).length + 1 := by
                          have := hperm.length_eq
                          simpa using this
                        exact ⟨by omega, hacc⟩

/-- The `fuel` argument is irrelevant once it exceeds the number of
pending logs: the wrapper's choice `pending.length + 1` is as good as
any other sufficient fuel, so the fuel is purely a termination device
and not part of the modelled semantics. -/
theorem settle_fuel_congr (fuel : Nat) :
    ∀ (fuel' : Nat) (accounts : AMap) (pending : List transaction_log)
      (applied : List Nat),
      pending.length < fuel → pending.length < fuel' →
      settle_fuel fuel accounts pending applied =
        settle_fuel fuel' accounts pending applied := by
  induction fuel with
  | zero =>
      intro fuel' accounts pending applied hlt
      exact absurd hlt (Nat.not_lt_zero _)
  | succ fuel ih =>
      intro fuel' accounts pending applied hlt hlt'
      cases fuel' with
      | zero => exact absurd hlt' (Nat.not_lt_zero _)
      | succ fuel'' =>
          rw [settle_fuel_succ, settle_fuel_succ]
          by_cases hz : get_invalid_accounts accounts = 0
          · rw [if_pos hz, if_pos hz]
          · rw [if_neg hz, if_neg hz]
            cases hss : score_all accounts pending with
            | none => rfl
            | some ss =>
                cases ss with
                | nil => rfl
                | cons p ps =>
                    simp only [hss]
                    cases hfind : pending.find?
                        (fun l => l.transaction_id == (ps.foldl lexMin p).2) with
                    | none => simp only [hfind]
                    | some chosen =>
                        simp only [hfind]
                        have hperm := find?_eraseById_perm hfind
                        have hlen : pending.length =
                            (eraseById pending (ps.foldl lexMin p).2).length + 1 := by
                          have := hperm.length_eq
                          simpa using this
                        rw [ih fuel'' (rollback_log accounts chosen.log)
                          (eraseById pending (ps.foldl lexMin p).2) applied
                          (by omega) (by omega)]

/-! Push-phase preservation lemmas. -/

theorem apply_log_keysNodup {m : AMap} (hnd : m.keysNodup) (log : AMap) :
    (apply_log m log).keysNodup := by
  induction log generalizing m with
  | nil => exact hnd
  | cons e rest ih =>
      rw [apply_log_cons]
      exact ih (AMap.bracketAdd_keysNodup hnd _ _)

theorem apply_log_contains_mono {m : AMap} {k : Int}
    (h : m.containsKey k = true) (log : AMap) :
    (apply_log m log).containsKey k = true := by
  induction log generalizing m with
  | nil => exact h
  | cons e rest ih =>
      rw [apply_log_cons]
      exact ih (AMap.bracketAdd_contains_mono h _ _)

theorem build_log_from_ids {validate : transfer → Bool} {t : transaction}
    {acc L : AMap} (P : Int → Prop)
    (h : build_log_from validate acc t = some L)
    (hacc : ∀ e ∈ acc, P e.2.account_id)
    (hxf : ∀ x ∈ t, validate x = true → P x.from_ ∧ P x.to_) :
    ∀ e ∈ L, P e.2.account_id := by
  induction t generalizing acc with
  | nil =>
      rw [build_log_from] at h
      cases h
      exact hacc
  | cons x rest ih =>
      rw [build_log_from] at h
      by_cases hv : validate x
      · rw [if_pos hv] at h
        refine ih h ?_ (fun y hy => hxf y (List.mem_cons_of_mem _ hy))
        intro e he
        rcases add_to_log_entry_ids e he with ⟨e', he', hid⟩ | hid | hid
        · rw [hid]
          exact hacc e' he'
        · rw [hid]
          exact (hxf x (List.mem_cons_self _ _) hv).1
        · rw [hid]
          exact (hxf x (List.mem_cons_self _ _) hv).2
      · rw [if_neg hv] at h
        cases h

theorem validate_xfer_true_iff (accounts : AMap) (x : transfer) :
    transaction_db.validate_xfer accounts x = true ↔
      accounts.containsKey x.to_ = true ∧ accounts.containsKey x.from_ = true := by
  rw [transaction_db.validate_xfer, Bool.and_eq_true]


theorem DBInv_mk_db {initial_balances : List account_balance}
    (h : ∀ a ∈ initial_balances, 0 ≤ a.balance) :
    DBInv (transaction_db.mk_db initial_balances) := by
  refine ⟨mk_db_keysNodup initial_balances, ?_, ?_⟩
  · intro l hl
    cases hl
  · intro k
    rw [show (transaction_db.mk_db initial_balances).temp_log = [] from rfl,
      pendingNetD_nil]
    have := mk_db_balanceAt_nonneg h k
    omega

theorem DBInv_push {db : transaction_db} (hinv : DBInv db) (t : transaction) :
    DBInv (db.push_transaction t) := by
  obtain ⟨hnd, hwf, hbal⟩ := hinv
  rw [transaction_db.push_transaction]
  cases hb : build_log (transaction_db.validate_xfer db.accounts) t with
  | none => exact ⟨hnd, hwf, hbal⟩
  | some L =>
      have hLids : ∀ e ∈ L, db.accounts.containsKey e.2.account_id = true := by
        refine build_log_from_ids
          (fun k => db.accounts.containsKey k = true) hb
          (by intro e he; cases he) ?_
        intro x _ hv
        have := (validate_xfer_true_iff db.accounts x).mp hv
        exact ⟨this.2, this.1⟩
      refine ⟨apply_log_keysNodup hnd L, ?_, ?_⟩
      · intro l hl e he
        rcases List.mem_append.mp hl with hl' | hl'
        · exact apply_log_contains_mono (hwf l hl' e he) L
        · simp at hl'
          subst hl'
          exact apply_log_contains_mono (hLids e he) L
      · intro k
        have h1 := apply_log_balanceAt L db.accounts k
        have h2 : pendingNetD (db.temp_log ++ [⟨db.current_transaction, L⟩]) k =
            pendingNetD db.temp_log k + sumDeltaAt L k := by
          rw [pendingNetD, List.map_append, List.sum_append]
          simp [pendingNetD, sumDeltaAt]
        have h3 := hbal k
        simp only [h1, h2]
        omega

theorem DBInv_pushAll {db : transaction_db} (hinv : DBInv db)
    (ts : List transaction) : DBInv (pushAll db ts) := by
  induction ts generalizing db with
  | nil => exact hinv
  | cons t rest ih =>
      rw [pushAll, List.foldl_cons]
      exact ih (DBInv_push hinv t)

theorem mem_insertSorted_self (l : List Nat) (x : Nat) : x ∈ insertSorted l x := by
  induction l with
  | nil => exact List.mem_cons_self _ _
  | cons y ys ih =>
      rw [insertSorted]
      by_cases h1 : x < y
      · rw [if_pos h1]
        exact List.mem_cons_self _ _
      · rw [if_neg h1]
        by_cases h2 : x = y
        · rw [if_pos h2, h2]
          exact List.mem_cons_self _ _
        · rw [if_neg h2]
          exact List.mem_cons_of_mem _ ih

theorem mem_insertSorted_mono {l : List Nat} {a : Nat} (h : a ∈ l) (x : Nat) :
    a ∈ insertSorted l x := by
  induction l with
  | nil => cases h
  | cons y ys ih =>
      rw [insertSorted]
      by_cases h1 : x < y
      · rw [if_pos h1]
        exact List.mem_cons_of_mem _ h
      · rw [if_neg h1]
        by_cases h2 : x = y
        · rw [if_pos h2]
          exact h
        · rw [if_neg h2]
          rcases List.mem_cons.mp h with rfl | h'
          · exact List.mem_cons_self _ _
          · exact List.mem_cons_of_mem _ (ih h')

theorem mem_foldl_insertSorted_mono (pending : List transaction_log)
    {s : List Nat} {a : Nat} (h : a ∈ s) :
    a ∈ pending.foldl (fun s l => insertSorted s l.transaction_id) s := by
  induction pending generalizing s with
  | nil => exact h
  | cons l rest ih =>
      rw [List.foldl_cons]
      exact ih (mem_insertSorted_mono h _)

theorem mem_foldl_insertSorted {pending : List transaction_log}
    {l0 : transaction_log} (h : l0 ∈ pending) (s : List Nat) :
    l0.transaction_id ∈
      pending.foldl (fun s l => insertSorted s l.transaction_id) s := by
  induction pending generalizing s with
  | nil => cases h
  | cons l rest ih =>
      rw [List.foldl_cons]
      rcases List.mem_cons.mp h with rfl | h'
      · exact mem_foldl_insertSorted_mono rest (mem_insertSorted_self _ _)
      · exact ih h' _

/-! Claim theorems. -/

/-- C1: the claim states that the per-log invalidity score computed
during settle equals the count of the log's touched accounts whose
balance would be negative after subtracting the log's delta *looked up
by account id*.  The code instead hands `net_change` the entry's delta
value: at the Scenario C state (balances `{1:-15, 2:5, 3:20}`, pending
log T1 = `{1 ↦ -20, 3 ↦ +20}`) the code scores 1 while the claimed
(spec §4.4) computation scores 0 — the by-id lookup the claim (and the
code's own documentation of `net_change`) describes is not what the code
computes. -/
theorem C1_invalidity_score_mismatch :
    sim_invalid [(1, ⟨1, -15⟩), (2, ⟨2, 5⟩), (3, ⟨3, 20⟩)]
        ⟨1, [(1, ⟨1, -20⟩), (3, ⟨3, 20⟩)]⟩ = some 1 ∧
      spec_invalidity_score [(1, ⟨1, -15⟩), (2, ⟨2, 5⟩), (3, ⟨3, 20⟩)]
        ⟨1, [(1, ⟨1, -20⟩), (3, ⟨3, 20⟩)]⟩ = 0 := by
  decide

/-- C2: on Scenario C (initial `{1:10, 2:0, 3:0}`, push `[{1→2,5}]`, push
`[{1→3,20}]`, settle) the claim expects `get_applied_transactions() = [0]`
and balances `{1:5, 2:5, 3:0}`.  Because of the scoring defect recorded
in C1, both pending logs score 1, the id tie-break selects T0, and the
code then also rolls back T1: the code actually yields
`get_applied_transactions() = []` and balances `{1:10, 2:0, 3:0}`. -/
theorem C2_scenario_c_code_eval :
    ((((transaction_db.mk_db [⟨1, 10⟩, ⟨2, 0⟩, ⟨3, 0⟩]).push_transaction
            [⟨1, 2, 5⟩]).push_transaction [⟨1, 3, 20⟩]).settle).map
        (fun db => (db.get_applied_transactions, db.get_balances)) =
      some ([], [⟨1, 10⟩, ⟨2, 0⟩, ⟨3, 0⟩]) := by
  decide

/-- C3: for every sequence of pushes followed by one settle, if every
initial balance is non-negative then settle returns normally and every
balance reported by `get_balances` is non-negative. -/
theorem C3_settle_nonneg (init : List account_balance)
    (ts : List transaction) (h : ∀ a ∈ init, 0 ≤ a.balance) :
    ∃ db', (pushAll (transaction_db.mk_db init) ts).settle = some db' ∧
      ∀ ab ∈ db'.get_balances, 0 ≤ ab.balance := by
  obtain ⟨hnd, hwf, hbal⟩ := DBInv_pushAll (DBInv_mk_db h) ts
  obtain ⟨acc, app, n, hs, hnn⟩ :=
    settle_fuel_nonneg ((pushAll (transaction_db.mk_db init) ts).temp_log.length + 1)
      (pushAll (transaction_db.mk_db init) ts).accounts
      (pushAll (transaction_db.mk_db init) ts).temp_log
      (pushAll (transaction_db.mk_db init) ts).applied_transactions
      (by omega) hnd hwf hbal
  refine ⟨{ pushAll (transaction_db.mk_db init) ts with
      accounts := acc, temp_log := [], applied_transactions := app }, ?_, ?_⟩
  · rw [transaction_db.settle]
    simp only [settle_go, hs]
  · intro ab hab
    rw [transaction_db.get_balances] at hab
    obtain ⟨e, he, rfl⟩ := List.mem_map.mp hab
    exact hnn e he

/-- C3 witness: Scenario A, concrete non-negative initial balances. -/
theorem C3_settle_nonneg_witness :
    ∃ db', (pushAll (transaction_db.mk_db [⟨1, 10⟩, ⟨2, 5⟩])
        [[⟨1, 2, 3⟩]]).settle = some db' ∧
      ∀ ab ∈ db'.get_balances, 0 ≤ ab.balance :=
  C3_settle_nonneg [⟨1, 10⟩, ⟨2, 5⟩] [[⟨1, 2, 3⟩]] (by decide)

/-- C4 counterexample: with duplicate initial ids `[{1,10}, {1,20}]` the
constructed map does *not* hold the later occurrence's balance — the
constructor's `std::inserter` calls `insert`, which keeps the existing
mapping. -/
theorem C4_counterexample :
    (transaction_db.mk_db [⟨1, 10⟩, ⟨1, 20⟩]).accounts.findVal? 1 ≠
      some ⟨1, 20⟩ := by
  decide

/-- C4 amended: for duplicate ids the constructed map holds the balance
of the *first* occurrence; later duplicates are silently ignored, with
no error: lookups resolve to the first input entry with that id. -/
theorem C4_amended_first_wins (initial_balances : List account_balance)
    (k : Int) :
    (transaction_db.mk_db initial_balances).accounts.findVal? k =
      initial_balances.find? (fun a => a.account_id == k) :=
  mk_db_findVal? initial_balances k

/-- C5 counterexample: in Scenario D (initial `{1:10}`, push the rejected
`[{1→2,5}]`, push `[{1→1,0}]`, settle) `get_applied_transactions()` is
not `[1]`: the rejected push does not advance the id counter, so the
accepted transaction receives id 0. -/
theorem C5_counterexample :
    ((((transaction_db.mk_db [⟨1, 10⟩]).push_transaction
            [⟨1, 2, 5⟩]).push_transaction [⟨1, 1, 0⟩]).settle).map
        (fun db => db.get_applied_transactions) ≠ some [1] := by
  decide

/-- C5 amended: Scenario D yields `get_applied_transactions() = [0]` (the
rejected push consumes no id, so the accepted no-op transaction gets id
0) and `get_balances() = {1:10}`. -/
theorem C5_amended_scenario_d :
    ((((transaction_db.mk_db [⟨1, 10⟩]).push_transaction
            [⟨1, 2, 5⟩]).push_transaction [⟨1, 1, 0⟩]).settle).map
        (fun db => (db.get_applied_transactions, db.get_balances)) =
      some ([0], [⟨1, 10⟩]) := by
  decide

/-- C6 counterexample: the rejected transaction of Scenario D is pushed
when the id counter is 0, so "its id" is 0 — yet after the later
successful push and settle, 0 *does* appear in
`get_applied_transactions()` (it was reassigned to the accepted
transaction, because rejected pushes do not consume ids). -/
theorem C6_counterexample :
    (transaction_db.mk_db [⟨1, 10⟩]).current_transaction = 0 ∧
      transaction_db.validate_xfer
        (transaction_db.mk_db [⟨1, 10⟩]).accounts ⟨1, 2, 5⟩ = false ∧
      ((((transaction_db.mk_db [⟨1, 10⟩]).push_transaction
              [⟨1, 2, 5⟩]).push_transaction [⟨1, 1, 0⟩]).settle).map
          (fun db => db.get_applied_transactions) = some [0] := by
  decide

/-- C6 amended: a push whose transaction contains a transfer referencing
a nonexistent account leaves the whole database state unchanged —
balances, pending buffer, committed set and id counter — so the rejected
transaction itself is never committed; but since the id counter is not
advanced, the numeric id it would have used is reassigned to the next
successful transaction and can later appear in
`get_applied_transactions()`. -/
theorem C6_amended_rejected_push_noop (db : transaction_db) (t : transaction)
    (h : ∃ x ∈ t, transaction_db.validate_xfer db.accounts x = false) :
    db.push_transaction t = db ∧
      (db.push_transaction t).get_balances = db.get_balances := by
  have hb : build_log (transaction_db.validate_xfer db.accounts) t = none :=
    build_log_none_of_invalid h
  constructor
  · rw [transaction_db.push_transaction, hb]
  · rw [transaction_db.push_transaction, hb]

/-- C6 witness. -/
theorem C6_amended_witness :
    (transaction_db.mk_db [⟨1, 10⟩]).push_transaction [⟨1, 2, 5⟩] =
        transaction_db.mk_db [⟨1, 10⟩] ∧
      ((transaction_db.mk_db [⟨1, 10⟩]).push_transaction
          [⟨1, 2, 5⟩]).get_balances =
        (transaction_db.mk_db [⟨1, 10⟩]).get_balances :=
  C6_amended_rejected_push_noop (transaction_db.mk_db [⟨1, 10⟩])
    [⟨1, 2, 5⟩] (by decide)

/-- C7 counterexample: `settle()` does not always return — with a
negative initial balance and nothing pending (state
`transaction_db.mk_db [{1, -1}]`, reachable by constructing and calling
settle), the recursion reaches a negative balance with an empty pending
buffer and executes `sia.front()` on an empty vector (undefined
behaviour, modelled `none`).  Moreover with zero pending logs the
recursion still performs one activation, exceeding the claimed bound of
P = 0 iterations. -/
theorem C7_counterexample :
    (transaction_db.mk_db [⟨1, -1⟩]).settle = none ∧
      settle_go [(1, ⟨1, 0⟩)] [] [] = some ([(1, ⟨1, 0⟩)], [], 1) ∧
      ¬(1 ≤ 0) := by
  decide

/-- C7 amended: whenever `settle` returns (in particular whenever the
state was produced by pushes from non-negative initial balances, per
C3), it executes at most P+1 activations (top-level entry plus recursive
self-calls) where P is the number of pending logs, its terminal state
has no negative balance, and a second consecutive settle from the
resulting state (empty pending buffer) terminates after a single
activation changing nothing. -/
theorem C7_amended_termination (accounts : AMap)
    (pending : List transaction_log) (applied : List Nat) (acc : AMap)
    (app : List Nat) (n : Nat)
    (h : settle_go accounts pending applied = some (acc, app, n)) :
    n ≤ pending.length + 1 ∧ get_invalid_accounts acc = 0 ∧
      settle_go acc [] app = some (acc, app, 1) := by
  obtain ⟨hn, hacc⟩ := settle_fuel_some_facts _ h
  refine ⟨hn, hacc, ?_⟩
  rw [settle_go, settle_fuel_succ, if_pos hacc]
  rfl

/-- C7 witness: Scenario B settles with two activations on one pending
log. -/
theorem C7_amended_termination_witness :
    2 ≤ 1 + 1 ∧
      get_invalid_accounts [(1, ⟨1, 5⟩), (2, ⟨2, 5⟩)] = 0 ∧
      settle_go [(1, ⟨1, 5⟩), (2, ⟨2, 5⟩)] [] [] =
        some ([(1, ⟨1, 5⟩), (2, ⟨2, 5⟩)], [], 1) :=
  C7_amended_termination [(1, ⟨1, -5⟩), (2, ⟨2, 15⟩)]
    [⟨0, [(1, ⟨1, -10⟩), (2, ⟨2, 10⟩)]⟩] [] [(1, ⟨1, 5⟩), (2, ⟨2, 5⟩)] [] 2
    (by decide)

/-- C8: pushing a successfully validated transaction preserves the sum
of all account balances — the condensed log's deltas sum to zero and
applying them adds each delta once. -/
theorem C8_conservation (db : transaction_db) (t : transaction)
    (h : ∀ x ∈ t, transaction_db.validate_xfer db.accounts x = true) :
    (db.push_transaction t).accounts.total = db.accounts.total ∧
      ∀ L, build_log (transaction_db.validate_xfer db.accounts) t = some L →
        L.total = 0 := by
  obtain ⟨L, hL⟩ := build_log_from_isSome h []
  have hL' : build_log (transaction_db.validate_xfer db.accounts) t = some L := hL
  constructor
  · rw [transaction_db.push_transaction, hL']
    show (apply_log db.accounts L).total = db.accounts.total
    rw [apply_log_total, build_log_total hL']
    ring
  · intro L'' hL''
    exact build_log_total hL''

/-- C8 witness: Scenario A's push. -/
theorem C8_conservation_witness :
    ((transaction_db.mk_db [⟨1, 10⟩, ⟨2, 5⟩]).push_transaction
          [⟨1, 2, 3⟩]).accounts.total =
        (transaction_db.mk_db [⟨1, 10⟩, ⟨2, 5⟩]).accounts.total ∧
      ∀ L, build_log (transaction_db.validate_xfer
          (transaction_db.mk_db [⟨1, 10⟩, ⟨2, 5⟩]).accounts) [⟨1, 2, 3⟩] =
            some L → L.total = 0 :=
  C8_conservation (transaction_db.mk_db [⟨1, 10⟩, ⟨2, 5⟩]) [⟨1, 2, 3⟩]
    (by decide)

/-- C9: on an account map with one entry per key, applying a transaction
log whose touched accounts all exist and then rolling it back restores
the account map exactly — rollback is the exact inverse of apply. -/
theorem C9_rollback_inverts_apply (accounts : AMap) (L : transaction_log)
    (hnd : accounts.keysNodup)
    (hex : ∀ e ∈ L.log, accounts.containsKey e.2.account_id = true) :
    rollback_log (apply_log accounts L.log) L.log = accounts :=
  rollback_log_apply_log hnd hex

/-- C9 witness: Scenario A's log applied and rolled back. -/
theorem C9_rollback_inverts_apply_witness :
    rollback_log (apply_log [(1, ⟨1, 10⟩), (2, ⟨2, 5⟩)]
        (transaction_log.mk 0 [(1, ⟨1, -3⟩), (2, ⟨2, 3⟩)]).log)
      (transaction_log.mk 0 [(1, ⟨1, -3⟩), (2, ⟨2, 3⟩)]).log =
      [(1, ⟨1, 10⟩), (2, ⟨2, 5⟩)] :=
  C9_rollback_inverts_apply [(1, ⟨1, 10⟩), (2, ⟨2, 5⟩)]
    (transaction_log.mk 0 [(1, ⟨1, -3⟩), (2, ⟨2, 3⟩)])
    (by constructor <;> decide) (by decide)

/-- C10: pushing an empty transaction always succeeds (the validation
loop has nothing to check), leaves the balances unchanged, consumes the
next id by buffering an empty log under it, and after a settle from a
state with no negative balances that id is committed into
`get_applied_transactions()`. -/
theorem C10_empty_transaction (db : transaction_db)
    (h : get_invalid_accounts db.accounts = 0) :
    db.push_transaction [] =
        { db with
          temp_log := db.temp_log ++ [⟨db.current_transaction, []⟩],
          current_transaction := db.current_transaction + 1 } ∧
      (db.push_transaction []).get_balances = db.get_balances ∧
      ∃ db', (db.push_transaction []).settle = some db' ∧
        db.current_transaction ∈ db'.get_applied_transactions := by
  refine ⟨rfl, rfl, ?_⟩
  have hterm : settle_go (db.push_transaction []).accounts
      (db.push_transaction []).temp_log
      (db.push_transaction []).applied_transactions =
      some ((db.push_transaction []).accounts,
        (db.push_transaction []).temp_log.foldl
          (fun s l => insertSorted s l.transaction_id)
          (db.push_transaction []).applied_transactions, 1) := by
    have h' : get_invalid_accounts (db.push_transaction []).accounts = 0 := h
    rw [settle_go, settle_fuel_succ, if_pos h']
  refine ⟨{ db.push_transaction [] with
      temp_log := [],
      applied_transactions := (db.push_transaction []).temp_log.foldl
        (fun s l => insertSorted s l.transaction_id)
        (db.push_transaction []).applied_transactions }, ?_, ?_⟩
  · rw [transaction_db.settle, hterm]
  · rw [transaction_db.get_applied_transactions]
    exact mem_foldl_insertSorted
      (show transaction_log.mk db.current_transaction [] ∈
          (db.push_transaction []).temp_log from
        List.mem_append_right _ (List.mem_cons_self _ _)) _

/-- C10 witness. -/
theorem C10_empty_transaction_witness :
    (transaction_db.mk_db [⟨1, 10⟩]).push_transaction [] =
        { transaction_db.mk_db [⟨1, 10⟩] with
          temp_log := [⟨0, []⟩], current_transaction := 1 } ∧
      ((transaction_db.mk_db [⟨1, 10⟩]).push_transaction []).get_balances =
        (transaction_db.mk_db [⟨1, 10⟩]).get_balances ∧
      ∃ db', ((transaction_db.mk_db [⟨1, 10⟩]).push_transaction []).settle =
          some db' ∧
        (transaction_db.mk_db [⟨1, 10⟩]).current_transaction ∈
          db'.get_applied_transactions :=
  C10_empty_transaction (transaction_db.mk_db [⟨1, 10⟩]) (by decide)
